import Mathlib

/-!
Verification of the formula reference resolution and dependency-graph engine
of the validador_csv repository (validator_tool), against its specification.

The Python sources are embedded shallowly: pure computations become Lean
functions over lists and strings; Python dicts become association lists with
Python's insertion semantics (assigning to an existing key replaces its value
in place, a new key is appended); Python sets become lists where an element is
added only when absent.  Regular-expression scans are embedded as explicit
left-to-right scanners implementing the leftmost-match semantics of
`re.finditer`/`re.sub` for the concrete patterns the source compiles; character
classes are read over ASCII, which covers every formula the tool handles.
Loops whose termination is not structural take a fuel argument; every wrapper
passes fuel that exceeds the number of steps the loop can make, so the fuel
branch is unreachable and the functions compute by evaluation.
-/

namespace Validador

/-- ASCII uppercase letter (codes 65-90), the class `[A-Z]` of the source's
regexes. -/
def isUpperAZ (c : Char) : Bool :=
  65 ≤ c.toNat && c.toNat ≤ 90

/-- ASCII decimal digit (codes 48-57), the class `\d` of the source's regexes
(read over ASCII). -/
def isDigit09 (c : Char) : Bool :=
  48 ≤ c.toNat && c.toNat ≤ 57

/-- ASCII word character `[A-Za-z0-9_]` (lowercase codes 97-122, underscore
95), the class `\w` used by the word boundary `\b`. -/
def isWordChar (c : Char) : Bool :=
  isUpperAZ c || (97 ≤ c.toNat && c.toNat ≤ 122) || isDigit09 c || c.toNat = 95

theorem length_dropWhile_le' (p : Char → Bool) (l : List Char) :
    (l.dropWhile p).length ≤ l.length := by
  induction l with
  | nil => simp
  | cons c cs ih =>
      by_cases h : p c
      · rw [List.dropWhile_cons_of_pos h]
        exact ih.trans (by simp)
      · simp [List.dropWhile_cons_of_neg h]

/-! ## Python dict as an association list

`dictInsert` is `d[k] = v`: an existing key keeps its position and gets the
new value, a new key is appended.  `dictGet` is `d.get(k)`.  `dictUpdate` is
`d.update(other)`, inserting `other`'s items in order. -/

def dictGet {α : Type} (k : String) : List (String × α) → Option α
  | [] => none
  | (k', v) :: rest => if k' = k then some v else dictGet k rest

def dictInsert {α : Type} (k : String) (v : α) : List (String × α) → List (String × α)
  | [] => [(k, v)]
  | (k', v') :: rest => if k' = k then (k', v) :: rest else (k', v') :: dictInsert k v rest

def dictUpdate {α : Type} (d other : List (String × α)) : List (String × α) :=
  other.foldl (fun acc kv => dictInsert kv.1 kv.2 acc) d

theorem dictGet_dictInsert {α : Type} (k k' : String) (v : α) (d : List (String × α)) :
    dictGet k (dictInsert k' v d) = if k' = k then some v else dictGet k d := by
  induction d with
  | nil => simp [dictInsert, dictGet]
  | cons hd tl ih =>
      obtain ⟨k₀, v₀⟩ := hd
      by_cases h : k₀ = k'
      · subst h
        by_cases h' : k₀ = k
        · subst h'
          simp [dictInsert, dictGet]
        · have hne : ¬ k₀ = k := h'
          simp [dictInsert, dictGet, hne]
      · by_cases h' : k₀ = k
        · subst h'
          have hne : ¬ k' = k₀ := fun hk => h hk.symm
          simp [dictInsert, dictGet, h, hne]
        · simp [dictInsert, dictGet, h, h', ih]

/-- Keys of an association list. -/
def dictKeys {α : Type} (d : List (String × α)) : List String :=
  d.map Prod.fst

theorem dictGet_eq_none_iff {α : Type} (k : String) (d : List (String × α)) :
    dictGet k d = none ↔ k ∉ dictKeys d := by
  induction d with
  | nil => simp [dictGet, dictKeys]
  | cons hd tl ih =>
      obtain ⟨k₀, v₀⟩ := hd
      by_cases h : k₀ = k
      · subst h
        simp [dictGet, dictKeys]
      · have hne : ¬ k = k₀ := fun hk => h hk.symm
        simp [dictGet, dictKeys, h, hne, ih]

theorem dictInsert_of_not_mem {α : Type} (k : String) (v : α) (d : List (String × α))
    (h : k ∉ dictKeys d) : dictInsert k v d = d ++ [(k, v)] := by
  induction d with
  | nil => simp [dictInsert]
  | cons hd tl ih =>
      obtain ⟨k₀, v₀⟩ := hd
      simp only [dictKeys, List.map_cons, List.mem_cons] at h
      push_neg at h
      have hne : ¬ k₀ = k := fun hk => h.1 hk.symm
      simp [dictInsert, hne, ih h.2]

/-! ## C8: cascade severity thresholds

Embedded from `report_generator.py`, `_create_cascade_impact_sheet`
(lines 546-560): the impact level of an `ImpactRecord` row is computed from
the count of affected columns plus affected formulas. -/

/-- `impact_level` computation and the three-way threshold of
`_create_cascade_impact_sheet`: `> 5` is CRITICO, `> 2` is ALTO, the rest is
MODERADO (source strings with accents kept). -/
def nivel_de_impacto (columns formulas : List String) : String :=
  let impact_level := columns.length + formulas.length
  if impact_level > 5 then "CRÍTICO"
  else if impact_level > 2 then "ALTO"
  else "MODERADO"

/-- C8: For every impact record, the reported severity level is determined
from the total count `affectedColumns.size + affectedFormulas.size` by the
fixed thresholds: at most 2 yields Moderate, 3 to 5 yields High, and more
than 5 yields Critical. -/
theorem c8_severity_thresholds (columns formulas : List String) :
    (columns.length + formulas.length ≤ 2 → nivel_de_impacto columns formulas = "MODERADO") ∧
    (3 ≤ columns.length + formulas.length ∧ columns.length + formulas.length ≤ 5 →
      nivel_de_impacto columns formulas = "ALTO") ∧
    (5 < columns.length + formulas.length → nivel_de_impacto columns formulas = "CRÍTICO") := by
  refine ⟨fun h => ?_, fun h => ?_, fun h => ?_⟩ <;>
    simp only [nivel_de_impacto] <;>
    split <;> first | rfl | omega | (split <;> first | rfl | omega)

/-! ## C6: formula generalizer

Embedded from `formula_auto_discovery.py`, `_generalize_formula`
(lines 392-403): `re.sub` of the pattern `([A-Z]+)(\d+)` with replacement
`\1{row}`.  `genGo` implements the leftmost non-overlapping scan of `re.sub`
for this pattern: at each position, a match is an uppercase run immediately
followed by a digit run (backtracking cannot produce any other match for this
pattern, because a shortened `[A-Z]+` is followed by another uppercase letter,
never a digit); the digits are replaced by the placeholder and the scan
resumes after the match.  Fuel exceeds the input length (each step consumes at
least one character), so the fuel branch never fires. -/

/-- The fixed row placeholder `\x7brow\x7d` written by the replacement. -/
def rowToken : List Char := ['{', 'r', 'o', 'w', '}']

/-- One leftmost-scan pass of `re.sub(r'([A-Z]+)(\d+)', r'\1{row}', s)`. -/
def genGo : Nat → List Char → List Char
  | 0, l => l
  | _ + 1, [] => []
  | fuel + 1, c :: cs =>
      if isUpperAZ c then
        let afterL := (c :: cs).dropWhile isUpperAZ
        if (afterL.head?.map isDigit09).getD false then
          (c :: cs).takeWhile isUpperAZ ++ rowToken ++ genGo fuel (afterL.dropWhile isDigit09)
        else
          c :: genGo fuel cs
      else
        c :: genGo fuel cs

/-- `FormulaAutoDiscovery._generalize_formula`. -/
def generalize_formula (formula : String) : String :=
  String.mk (genGo (formula.toList.length + 1) formula.toList)

/-- No uppercase letter is immediately followed by a digit: no remaining
row-number component of any cell reference. -/
def NoUpperDigit (l : List Char) : Prop :=
  l.Chain' (fun c d => ¬(isUpperAZ c = true ∧ isDigit09 d = true))

theorem isDigit09_eq_false_of_isUpperAZ {c : Char} (h : isUpperAZ c = true) :
    isDigit09 c = false := by
  simp only [isUpperAZ, Bool.and_eq_true, decide_eq_true_eq] at h
  simp only [isDigit09, Bool.and_eq_false_iff, decide_eq_false_iff_not]
  right
  omega

theorem chain'_of_no_digit {l : List Char} (h : ∀ d ∈ l, isDigit09 d = false) :
    NoUpperDigit l := by
  induction l with
  | nil => exact List.chain'_nil
  | cons c cs ih =>
      refine List.chain'_cons'.2 ⟨fun y hy hc => ?_, ih fun d hd => h d (List.mem_cons_of_mem c hd)⟩
      have : isDigit09 y = false := h y (by cases cs <;> simp_all [List.head?])
      simp [this] at hc

theorem noUpperDigit_tail {c : Char} {cs : List Char} (h : NoUpperDigit (c :: cs)) :
    NoUpperDigit cs :=
  (List.chain'_cons'.1 h).2

theorem noUpperDigit_dropWhile_head {c : Char} {cs : List Char}
    (h : NoUpperDigit (c :: cs)) (hc : isUpperAZ c = true) :
    (((c :: cs).dropWhile isUpperAZ).head?.map isDigit09).getD false = false := by
  induction cs generalizing c with
  | nil => simp [List.dropWhile, hc]
  | cons d rest ih =>
      rw [List.dropWhile_cons_of_pos (by simpa using hc)]
      by_cases hd : isUpperAZ d
      · exact ih (noUpperDigit_tail h) hd
      · rw [List.dropWhile_cons_of_neg (by simpa using hd)]
        have hpair := (List.chain'_cons.1 h).1
        simp only [List.head?_cons, Option.map_some, Option.getD_some]
        by_cases hdig : isDigit09 d
        · exact absurd ⟨hc, hdig⟩ hpair
        · simpa using hdig

theorem genGo_of_noUpperDigit {l : List Char} (h : NoUpperDigit l) (fuel : Nat) :
    genGo fuel l = l := by
  induction fuel generalizing l with
  | zero => rfl
  | succ fuel ih =>
      match l with
      | [] => rfl
      | c :: cs =>
          by_cases hc : isUpperAZ c
          · have hb := noUpperDigit_dropWhile_head h hc
            rw [List.dropWhile_cons_of_pos (by simpa using hc)] at hb
            rw [genGo]
            simp [hc, hb, ih (noUpperDigit_tail h)]
          · rw [genGo]
            simp [hc, ih (noUpperDigit_tail h)]

theorem genGo_head? (fuel : Nat) (l : List Char) : (genGo fuel l).head? = l.head? := by
  match fuel, l with
  | 0, l => rfl
  | _ + 1, [] => rfl
  | fuel + 1, c :: cs =>
      rw [genGo]
      by_cases hc : isUpperAZ c
      · simp only [hc, if_true]
        by_cases hd : ((((c :: cs).dropWhile isUpperAZ).head?).map isDigit09).getD false
        · simp only [hd, if_true]
          rw [List.takeWhile_cons_of_pos (by simpa using hc)]
          simp
        · simp [hd]
      · simp [hc]

theorem genGo_noUpperDigit {fuel : Nat} {l : List Char} (hlen : l.length < fuel) :
    NoUpperDigit (genGo fuel l) := by
  induction fuel generalizing l with
  | zero => omega
  | succ fuel ih =>
      match l with
      | [] => exact List.chain'_nil
      | c :: cs =>
          rw [genGo]
          by_cases hc : isUpperAZ c
          · simp only [hc, if_true]
            by_cases hd : ((((c :: cs).dropWhile isUpperAZ).head?).map isDigit09).getD false
            · simp only [hd, if_true]
              set afterL := (c :: cs).dropWhile isUpperAZ with hAfterL
              set letters := (c :: cs).takeWhile isUpperAZ with hLetters
              have hlet : ∀ x ∈ letters, isUpperAZ x = true := by
                intro x hx
                exact List.mem_takeWhile_imp hx
              have hAd : afterL.length ≤ cs.length := by
                rw [hAfterL, List.dropWhile_cons_of_pos (by simpa using hc)]
                exact length_dropWhile_le' isUpperAZ cs
              have hrec : NoUpperDigit (genGo fuel (afterL.dropWhile isDigit09)) := by
                apply ih
                have h1 : (afterL.dropWhile isDigit09).length ≤ afterL.length :=
                  length_dropWhile_le' isDigit09 afterL
                simp only [List.length_cons] at hlen
                omega
              have hrow : NoUpperDigit rowToken := by
                refine List.chain'_cons.2 ⟨by decide, ?_⟩
                refine List.chain'_cons.2 ⟨by decide, ?_⟩
                refine List.chain'_cons.2 ⟨by decide, ?_⟩
                refine List.chain'_cons.2 ⟨by decide, ?_⟩
                exact List.chain'_singleton _
              rw [List.append_assoc]
              refine (List.chain'_append).2 ⟨chain'_of_no_digit ?_, ?_, ?_⟩
              · intro d hd
                exact isDigit09_eq_false_of_isUpperAZ (hlet d hd)
              · refine (List.chain'_append).2 ⟨hrow, hrec, ?_⟩
                intro x hx y hy hc'
                have hx' : x = '}' := by
                  simp [rowToken, Option.mem_def] at hx
                  first
                  | exact hx
                  | exact hx.symm
                rw [hx'] at hc'
                exact absurd hc'.1 (by decide)
              · intro x hx y hy hc'
                have hy' : y = '{' := by
                  simp [rowToken, Option.mem_def] at hy
                  first
                  | exact hy
                  | exact hy.symm
                rw [hy'] at hc'
                exact absurd hc'.2 (by decide)
            · simp only [hd, if_false]
              have hrec : NoUpperDigit (genGo fuel cs) := ih (by simp at hlen; omega)
              refine List.chain'_cons'.2 ⟨?_, hrec⟩
              intro y hy hc'
              rw [genGo_head? fuel cs] at hy
              match cs, hy with
              | d :: rest, hy =>
                  rw [List.head?_cons, Option.mem_def, Option.some_inj] at hy
                  subst hy
                  by_cases hdu : isUpperAZ d
                  · exact absurd hc'.2 (by simp [isDigit09_eq_false_of_isUpperAZ hdu])
                  · rw [List.dropWhile_cons_of_pos (by simpa using hc),
                      List.dropWhile_cons_of_neg (by simpa using hdu)] at hd
                    simp only [List.head?_cons, Option.map_some, Option.getD_some] at hd
                    exact absurd hc'.2 (by simpa using hd)
          · simp only [hc, if_false]
            have hrec : NoUpperDigit (genGo fuel cs) := ih (by simp at hlen; omega)
            refine List.chain'_cons'.2 ⟨?_, hrec⟩
            intro y hy hc'
            exact absurd hc'.1 (by simp [hc])

/-- C6: Generalization replaces every row-number component (no uppercase
letter is immediately followed by a digit in the output), it is idempotent,
and formulas differing only in row numbers generalize identically. -/
theorem c6_generalize_idempotent :
    (∀ f : String, generalize_formula (generalize_formula f) = generalize_formula f) ∧
    (∀ f : String, NoUpperDigit (generalize_formula f).toList) ∧
    generalize_formula "=SALARIO2+BONUS2" = generalize_formula "=SALARIO57+BONUS57" ∧
    generalize_formula "=SALARIO2+BONUS2" = "=SALARIO{row}+BONUS{row}" := by
  have hnoud : ∀ f : String, NoUpperDigit (generalize_formula f).toList := by
    intro f
    have : (generalize_formula f).toList = genGo (f.toList.length + 1) f.toList := rfl
    rw [this]
    exact genGo_noUpperDigit (Nat.lt_succ_self _)
  refine ⟨fun f => ?_, hnoud, by decide, by decide⟩
  have h := hnoud f
  show String.mk (genGo ((generalize_formula f).toList.length + 1) (generalize_formula f).toList)
      = generalize_formula f
  rw [genGo_of_noUpperDigit h]
  rfl

/-! ## C7 / C4: formula translator

Embedded from `formula_extractor.py`, `_translate_formula` (lines 277-308):
`finditer` of the compiled pattern `\b([A-Z]+)(\d+)\b` over the formula, then
a right-to-left pass over the matches replacing each whose column letters have
an entry in the translation map by the mapped name (the row number is not kept:
default row-number-dropping mode).

`findRefsAux` implements `finditer` for this pattern: scanning left to right,
a match starts at a position not preceded by a word character (the left `\b`;
the match starts with an uppercase letter, itself a word character), takes the
maximal uppercase run, requires a nonempty maximal digit run, and requires the
next character to not be a word character (the right `\b`); no other
decomposition can match, since a shortened `[A-Z]+` is followed by an
uppercase letter where `\d` is required, and a shortened `\d+` is followed by
a digit where `\b` requires a boundary.  The scan resumes after each match.
`translateGo` is the source's reversed splice loop: it applies the later
matches first (the recursive call), then the earlier one, exactly as
`for match in reversed(matches)` does. -/

/-- One match of `\b([A-Z]+)(\d+)\b`: its span and its two groups. -/
structure CellRefMatch where
  startPos : Nat
  endPos : Nat
  colLetters : List Char
  rowDigits : List Char
deriving DecidableEq

/-- `finditer(r'\b([A-Z]+)(\d+)\b', ...)` from a scan position with the word
status of the previous character.  Fuel exceeds the input length. -/
def findRefsAux : Nat → List Char → Nat → Bool → List CellRefMatch
  | 0, _, _, _ => []
  | _ + 1, [], _, _ => []
  | fuel + 1, c :: cs, pos, prevWord =>
      if isUpperAZ c = true ∧ prevWord = false then
        let letters := (c :: cs).takeWhile isUpperAZ
        let afterL := (c :: cs).dropWhile isUpperAZ
        let digits := afterL.takeWhile isDigit09
        let afterD := afterL.dropWhile isDigit09
        if digits ≠ [] ∧ (afterD.head?.map isWordChar).getD false = false then
          { startPos := pos, endPos := pos + letters.length + digits.length,
            colLetters := letters, rowDigits := digits } ::
            findRefsAux fuel afterD (pos + letters.length + digits.length) true
        else
          findRefsAux fuel cs (pos + 1) (isWordChar c)
      else
        findRefsAux fuel cs (pos + 1) (isWordChar c)

/-- `translated[:start] + new_name + translated[end:]`. -/
def spliceAt (t : List Char) (s e : Nat) (repl : List Char) : List Char :=
  t.take s ++ repl ++ t.drop e

/-- The source's `for match in reversed(matches)` splice loop: later matches
(the tail of the scan-ordered list) are applied first, so earlier spans stay
valid. -/
def translateGo (translation_map : List (String × String)) :
    List CellRefMatch → List Char → List Char
  | [], t => t
  | m :: ms, t =>
      let t' := translateGo translation_map ms t
      match dictGet (String.mk m.colLetters) translation_map with
      | some new_name => spliceAt t' m.startPos m.endPos new_name.toList
      | none => t'

/-- `FormulaExtractor._translate_formula`. -/
def translate_formula (formula : String) (translation_map : List (String × String)) : String :=
  String.mk (translateGo translation_map
    (findRefsAux (formula.toList.length + 1) formula.toList 0 false) formula.toList)

/-- The specification's reading of default-mode translation: one left-to-right
pass over the formula; each `\b([A-Z]+)(\d+)\b` token whose letters are mapped
is replaced by the mapped name with the row digits dropped, an unmapped token
and every character outside the matched spans are emitted unchanged. -/
def renderGo (translation_map : List (String × String)) : Nat → List Char → Bool → List Char
  | 0, l, _ => l
  | _ + 1, [], _ => []
  | fuel + 1, c :: cs, prevWord =>
      if isUpperAZ c = true ∧ prevWord = false then
        let letters := (c :: cs).takeWhile isUpperAZ
        let afterL := (c :: cs).dropWhile isUpperAZ
        let digits := afterL.takeWhile isDigit09
        let afterD := afterL.dropWhile isDigit09
        if digits ≠ [] ∧ (afterD.head?.map isWordChar).getD false = false then
          (match dictGet (String.mk letters) translation_map with
            | some new_name => new_name.toList
            | none => letters ++ digits) ++ renderGo translation_map fuel afterD true
        else
          c :: renderGo translation_map fuel cs (isWordChar c)
      else
        c :: renderGo translation_map fuel cs (isWordChar c)

/-- The specification's translation function, for comparison with the
source-embedded `translate_formula`. -/
def spec_translate_formula (formula : String) (translation_map : List (String × String)) :
    String :=
  String.mk (renderGo translation_map (formula.toList.length + 1) formula.toList false)

theorem translateGo_findRefsAux (translation_map : List (String × String)) (fuel : Nat) :
    ∀ (rest pre : List Char) (prevWord : Bool),
      translateGo translation_map (findRefsAux fuel rest pre.length prevWord) (pre ++ rest)
        = pre ++ renderGo translation_map fuel rest prevWord := by
  induction fuel with
  | zero => intro rest pre prevWord; rfl
  | succ fuel ih =>
      intro rest pre prevWord
      match rest with
      | [] => simp [findRefsAux, renderGo, translateGo]
      | c :: cs =>
          rw [findRefsAux, renderGo]
          by_cases hout : isUpperAZ c = true ∧ prevWord = false
          · rw [if_pos hout, if_pos hout]
            set letters := (c :: cs).takeWhile isUpperAZ with hLet
            set afterL := (c :: cs).dropWhile isUpperAZ with hAfterL
            set digits := afterL.takeWhile isDigit09 with hDig
            set afterD := afterL.dropWhile isDigit09 with hAfterD
            by_cases hin : digits ≠ [] ∧ (afterD.head?.map isWordChar).getD false = false
            · rw [if_pos hin, if_pos hin]
              have hsplit : c :: cs = letters ++ digits ++ afterD := by
                rw [hLet, hAfterL] at *
                rw [List.append_assoc, hDig, hAfterD,
                  List.takeWhile_append_dropWhile, List.takeWhile_append_dropWhile]
              have hlen2 : (pre ++ letters ++ digits).length
                  = pre.length + letters.length + digits.length := by
                simp [Nat.add_assoc]
              have ht : pre ++ (c :: cs) = (pre ++ letters ++ digits) ++ afterD := by
                rw [hsplit]
                simp
              simp only [translateGo]
              have hrec := ih afterD (pre ++ letters ++ digits) true
              rw [hlen2] at hrec
              rw [ht, hrec]
              cases hget : dictGet (String.mk letters) translation_map with
              | some new_name =>
                  simp only [hget]
                  show spliceAt ((pre ++ letters ++ digits) ++
                      renderGo translation_map fuel afterD true)
                      pre.length (pre.length + letters.length + digits.length)
                      new_name.toList = _
                  unfold spliceAt
                  rw [← hlen2]
                  rw [List.drop_left]
                  have htake : ((pre ++ letters ++ digits) ++
                      renderGo translation_map fuel afterD true).take pre.length = pre := by
                    rw [List.append_assoc, List.append_assoc]
                    exact List.take_left pre _
                  rw [htake]
                  simp
              | none =>
                  simp only [hget]
                  simp
            · rw [if_neg hin, if_neg hin]
              have hrec := ih cs (pre ++ [c]) (isWordChar c)
              have hl : (pre ++ [c]).length = pre.length + 1 := by simp
              rw [hl] at hrec
              have ht : pre ++ (c :: cs) = (pre ++ [c]) ++ cs := by simp
              rw [ht, hrec]
              simp
          · rw [if_neg hout, if_neg hout]
            have hrec := ih cs (pre ++ [c]) (isWordChar c)
            have hl : (pre ++ [c]).length = pre.length + 1 := by simp
            rw [hl] at hrec
            have ht : pre ++ (c :: cs) = (pre ++ [c]) ++ cs := by simp
            rw [ht, hrec]
            simp

theorem translateGo_empty_map (ms : List CellRefMatch) (t : List Char) :
    translateGo [] ms t = t := by
  induction ms with
  | nil => rfl
  | cons m ms ih => rw [translateGo]; simp [dictGet, ih]

/-- C7: In default row-number-dropping mode, translation equals the
specification's one-pass rendering: every matched cell-reference token with a
mapped column letter becomes the mapped name with its row number dropped,
everything else (unmapped tokens, all text outside the matched spans) is
unchanged; with an empty map the formula is returned verbatim; and the
spec's example holds. -/
theorem c7_translate_drops_rows :
    (∀ (formula : String) (translation_map : List (String × String)),
      translate_formula formula translation_map
        = spec_translate_formula formula translation_map) ∧
    (∀ formula : String, translate_formula formula [] = formula) ∧
    translate_formula "=A2+B2" [("A", "SALARIO"), ("B", "BONUS")] = "=SALARIO+BONUS" := by
  have hmain : ∀ (formula : String) (translation_map : List (String × String)),
      translate_formula formula translation_map
        = spec_translate_formula formula translation_map := by
    intro formula translation_map
    have h := translateGo_findRefsAux translation_map (formula.toList.length + 1)
      formula.toList [] false
    simp only [List.length_nil, List.nil_append] at h
    show String.mk _ = String.mk _
    rw [h]
  refine ⟨hmain, fun formula => ?_, by decide⟩
  show String.mk (translateGo [] _ formula.toList) = formula
  rw [translateGo_empty_map]
  rfl

/-- C4 (failing-input evaluation): of the four absolute-reference variants,
only those without a `$` before the row number are translated: `C1` and `$C1`
resolve to the mapped name, while `C$1` and `$C$1` are left untranslated,
because the translator's pattern `\b([A-Z]+)(\d+)\b` cannot match across the
`$` between column letters and row digits. -/
theorem c4_dollar_row_variants_untranslated :
    translate_formula "=C1" [("C", "NOME")] = "=NOME" ∧
    translate_formula "=$C1" [("C", "NOME")] = "=$NOME" ∧
    translate_formula "=C$1" [("C", "NOME")] = "=C$1" ∧
    translate_formula "=$C$1" [("C", "NOME")] = "=$C$1" := by
  refine ⟨by decide, by decide, by decide, by decide⟩

/-! ## C1: impact cascade

Embedded from `impact_analyzer.py`, `ImpactAnalyzer.analisar_cadeia_impacto`
(lines 114-135): for each formula (key `col_formula` with its `mapeamento`
dict), every referenced column value gets `col_formula` added to its impact
set.  Python sets are modeled as lists where an element is appended only when
absent; dict entries keep insertion order. -/

/-- Python `set.add`: append only when absent. -/
def setAdd (s : List String) (x : String) : List String :=
  if x ∈ s then s else s ++ [x]

/-- `cadeia_impacto[col_ref].add(col_formula)`, creating the missing entry
first, as the source's membership test plus assignment does. -/
def addImpact : List (String × List String) → String → String → List (String × List String)
  | [], col_ref, col_formula => [(col_ref, [col_formula])]
  | (k, s) :: rest, col_ref, col_formula =>
      if k = col_ref then (k, setAdd s col_formula) :: rest
      else (k, s) :: addImpact rest col_ref col_formula

/-- `ImpactAnalyzer.analisar_cadeia_impacto`: one pass over the formulas; for
each value of a formula's `mapeamento`, the formula key is added to that
column's impact set. -/
def analisar_cadeia_impacto (formulas : List (String × List (String × String))) :
    List (String × List String) :=
  formulas.foldl
    (fun cadeia cf => cf.2.foldl (fun cad kv => addImpact cad kv.2 cf.1) cadeia) []

/-- The impact set recorded for an origin column (empty when absent). -/
def impactOf (cadeia : List (String × List String)) (col : String) : List String :=
  (dictGet col cadeia).getD []

theorem mem_setAdd (s : List String) (x g : String) :
    g ∈ setAdd s x ↔ g ∈ s ∨ g = x := by
  unfold setAdd
  by_cases h : x ∈ s
  · simp only [h, if_true]
    constructor
    · exact Or.inl
    · rintro (hg | rfl)
      · exact hg
      · exact h
  · simp [h]

theorem mem_addImpact (cadeia : List (String × List String)) (c f col g : String) :
    g ∈ impactOf (addImpact cadeia c f) col
      ↔ g ∈ impactOf cadeia col ∨ (g = f ∧ col = c) := by
  induction cadeia with
  | nil =>
      by_cases h : c = col
      · subst h
        simp [addImpact, impactOf, dictGet]
      · have h' : ¬ col = c := fun hc => h hc.symm
        simp [addImpact, impactOf, dictGet, h, h']
  | cons hd rest ih =>
      obtain ⟨k, s⟩ := hd
      by_cases hk : k = c
      · subst hk
        by_cases hcol : k = col
        · subst hcol
          simp [addImpact, impactOf, dictGet, mem_setAdd]
        · have h' : ¬ col = k := fun hc => hcol hc.symm
          simp [addImpact, impactOf, dictGet, hcol, h']
      · by_cases hcol : k = col
        · subst hcol
          simp [addImpact, impactOf, dictGet, hk]
        · simp only [addImpact, hk, if_false]
          simp only [impactOf, dictGet, hcol, if_false]
          exact ih

theorem mem_impact_innerFold (m : List (String × String)) (cf : String)
    (cadeia : List (String × List String)) (col g : String) :
    g ∈ impactOf (m.foldl (fun cad kv => addImpact cad kv.2 cf) cadeia) col
      ↔ g ∈ impactOf cadeia col ∨ (g = cf ∧ col ∈ m.map Prod.snd) := by
  induction m generalizing cadeia with
  | nil => simp
  | cons kv m' ih =>
      rw [List.foldl_cons, ih, mem_addImpact]
      simp only [List.map_cons, List.mem_cons]
      constructor
      · rintro ((h | ⟨rfl, rfl⟩) | ⟨rfl, h⟩)
        · exact Or.inl h
        · exact Or.inr ⟨rfl, Or.inl rfl⟩
        · exact Or.inr ⟨rfl, Or.inr h⟩
      · rintro (h | ⟨rfl, (h | h)⟩)
        · exact Or.inl (Or.inl h)
        · exact Or.inl (Or.inr ⟨rfl, h⟩)
        · exact Or.inr ⟨rfl, h⟩

theorem mem_impact_foldl (fs : List (String × List (String × String)))
    (cadeia : List (String × List String)) (col g : String) :
    g ∈ impactOf (fs.foldl
        (fun cad cf => cf.2.foldl (fun cad' kv => addImpact cad' kv.2 cf.1) cad) cadeia) col
      ↔ g ∈ impactOf cadeia col
        ∨ ∃ m, (g, m) ∈ fs ∧ col ∈ m.map Prod.snd := by
  induction fs generalizing cadeia with
  | nil => simp
  | cons cf fs' ih =>
      rw [List.foldl_cons, ih, mem_impact_innerFold]
      constructor
      · rintro ((h | ⟨rfl, h⟩) | ⟨m, hm, h⟩)
        · exact Or.inl h
        · exact Or.inr ⟨cf.2, by simp, h⟩
        · exact Or.inr ⟨m, List.mem_cons_of_mem _ hm, h⟩
      · rintro (h | ⟨m, hm, h⟩)
        · exact Or.inl (Or.inl h)
        · rcases List.mem_cons.1 hm with heq | hm'
          · have hg : g = cf.1 ∧ m = cf.2 := Prod.ext_iff.1 heq
            exact Or.inl (Or.inr ⟨hg.1, hg.2 ▸ h⟩)
          · exact Or.inr ⟨m, hm', h⟩

/-- C1 (counterexample): with `F1` depending on column `X` and `F2` depending
on `F1`, the impact set computed for `X` is exactly `[F1]`: the transitive
consumer `F2` is not included, contradicting the claimed transitive closure. -/
theorem c1_impact_not_transitive_counterexample :
    impactOf (analisar_cadeia_impacto
        [("F1", [("A2", "X")]), ("F2", [("B2", "F1")])]) "X" = ["F1"] ∧
    "F2" ∉ impactOf (analisar_cadeia_impacto
        [("F1", [("A2", "X")]), ("F2", [("B2", "F1")])]) "X" := by
  refine ⟨by decide, by decide⟩

/-- C1 (amended): the impact-cascade map assigns to each origin column exactly
its direct consumers — the formulas whose `mapeamento` values mention the
column (one reverse-dependency hop); reachability by two or more hops is not
included. -/
theorem c1_impact_direct_consumers (formulas : List (String × List (String × String)))
    (col f : String) :
    f ∈ impactOf (analisar_cadeia_impacto formulas) col
      ↔ ∃ m, (f, m) ∈ formulas ∧ col ∈ m.map Prod.snd := by
  unfold analisar_cadeia_impacto
  rw [mem_impact_foldl]
  simp [impactOf, dictGet]

/-! ## C3: processing-order leveler

Embedded from `cross_sheet_analyzer.py`,
`CrossSheetAnalyzer._calculate_processing_order` (lines 224-264).  Python sets
are determinized as duplicate-free lists (`dedup` for the collected sheet set,
`filter` for set difference); membership, the while-loop and the break branch
are modeled exactly.  The loop runs while unassigned sheets remain; each pass
either assigns at least one sheet or assigns the whole circular remainder and
breaks, so at most `all_sheets.length` passes happen and the wrapper's fuel is
never exhausted (the fuel arm repeats the break branch, keeping the embedding
total without changing reachable behavior). -/

/-- `dependencies.get(sheet, set())`. -/
def depsOfSheet (dependencies : List (String × List String)) (s : String) : List String :=
  (dictGet s dependencies).getD []

/-- The set `all_sheets`: every key plus every dependency value. -/
def allSheetsOf (dependencies : List (String × List String)) : List String :=
  (dependencies.map Prod.fst ++ (dependencies.map Prod.snd).flatten).dedup

/-- The `while len(processed) < len(all_sheets)` loop: assign to the current
level every unassigned sheet all of whose dependencies are processed; when a
pass assigns nothing the circular remainder is assigned as one level and
the loop breaks. -/
def levelLoop (dependencies : List (String × List String)) :
    Nat → List String → List String → Nat → List (Nat × List String)
  | 0, remaining, _, level => if remaining = [] then [] else [(level, remaining)]
  | fuel + 1, remaining, processed, level =>
      if remaining = [] then []
      else
        let cur := remaining.filter
          (fun s => (depsOfSheet dependencies s).all (fun d => decide (d ∈ processed)))
        if cur = [] then [(level, remaining)]
        else
          (level, cur) ::
            levelLoop dependencies fuel (remaining.filter (fun s => decide (s ∉ cur)))
              (processed ++ cur) (level + 1)

/-- `CrossSheetAnalyzer._calculate_processing_order`: level 0 holds the sheets
that are not keys of the dependency map; later levels come from the loop. -/
def calculate_processing_order (dependencies : List (String × List String)) :
    List (Nat × List String) :=
  let all_sheets := allSheetsOf dependencies
  let level_0 := all_sheets.filter
    (fun s => decide (s ∉ dependencies.map Prod.fst))
  if level_0 = [] then
    levelLoop dependencies (all_sheets.length + 1) all_sheets [] 0
  else
    (0, level_0) ::
      levelLoop dependencies (all_sheets.length + 1)
        (all_sheets.filter (fun s => decide (s ∉ level_0))) level_0 1

theorem filter_not_mem_filter_perm (l : List String) (p : String → Bool) :
    List.Perm (l.filter p ++ l.filter (fun s => decide (s ∉ l.filter p))) l := by
  have hcongr : ∀ x ∈ l, (decide (x ∉ l.filter p)) = !p x := by
    intro x hx
    by_cases hp : p x
    · simp [List.mem_filter, hx, hp]
    · simp [List.mem_filter, hp]
  rw [List.filter_congr hcongr]
  exact l.filter_append_perm p

theorem levelLoop_join_perm (dependencies : List (String × List String)) :
    ∀ (fuel : Nat) (remaining processed : List String) (level : Nat),
      List.Perm (((levelLoop dependencies fuel remaining processed level).map Prod.snd).flatten)
        remaining := by
  intro fuel
  induction fuel with
  | zero =>
      intro remaining processed level
      by_cases h : remaining = []
      · simp [levelLoop, h]
      · simp [levelLoop, h]
  | succ fuel ih =>
      intro remaining processed level
      by_cases h : remaining = []
      · simp [levelLoop, h]
      · rw [levelLoop, if_neg h]
        set p : String → Bool :=
          fun s => (depsOfSheet dependencies s).all (fun d => decide (d ∈ processed)) with hp
        set cur := remaining.filter p with hcur
        by_cases hc : cur = []
        · simp [hc]
        · rw [if_neg hc]
          simp only [List.map_cons, List.flatten]
          refine List.Perm.trans (List.Perm.append_left cur (ih _ _ _)) ?_
          exact filter_not_mem_filter_perm remaining p

/-- C3: The leveler is total (a Lean function), every sheet mentioned in the
dependency map appears in exactly one level (the concatenation of the level
lists is a permutation of the duplicate-free sheet set), and on the fully
cyclic three-sheet map the whole remainder is placed together in one level. -/
theorem c3_levels_partition (dependencies : List (String × List String)) :
    List.Perm (((calculate_processing_order dependencies).map Prod.snd).flatten)
      (allSheetsOf dependencies) ∧
    (allSheetsOf dependencies).Nodup ∧
    (∀ s, s ∈ allSheetsOf dependencies →
      (((calculate_processing_order dependencies).map Prod.snd).flatten).count s = 1) ∧
    calculate_processing_order [("A", ["B"]), ("B", ["C"]), ("C", ["A"])]
      = [(0, ["B", "C", "A"])] := by
  have hperm : List.Perm (((calculate_processing_order dependencies).map Prod.snd).flatten)
      (allSheetsOf dependencies) := by
    unfold calculate_processing_order
    set all_sheets := allSheetsOf dependencies with hall
    set level_0 := all_sheets.filter
      (fun s => decide (s ∉ dependencies.map Prod.fst)) with hl0
    by_cases h0 : level_0 = []
    · rw [if_pos h0]
      exact levelLoop_join_perm dependencies _ _ _ _
    · rw [if_neg h0]
      simp only [List.map_cons, List.flatten]
      refine List.Perm.trans (List.Perm.append_left level_0 (levelLoop_join_perm _ _ _ _ _)) ?_
      exact filter_not_mem_filter_perm all_sheets _
  have hnodup : (allSheetsOf dependencies).Nodup := List.nodup_dedup _
  refine ⟨hperm, hnodup, fun s hs => ?_, by decide⟩
  rw [hperm.count_eq]
  exact List.count_eq_one_of_mem hnodup hs

/-! ## C2: circular-dependency detector

Embedded from `cross_sheet_analyzer.py`,
`CrossSheetAnalyzer._detect_circular_dependencies` (lines 336-366).  The inner
`has_cycle(node, visited, rec_stack, path)` mutates shared dicts and a shared
path list; here the three are threaded as an explicit state.  Its Python
result is `False` (continue), `True` (a nested call found a cycle), or the
concrete cycle list `path[cycle_start:]` (found against the current
recursion stack); `path.index` raises `ValueError` when the stack holds a
stale entry not on the current path, modeled as an explicit exception result
that the caller (which has no handler) turns into an error.  Recursion depth
is bounded by the number of unvisited nodes, since every call marks its node
visited and recurses only into unvisited neighbors, so the wrapper's fuel
(`all sheets + 1`) is never exhausted. -/

/-- A Python return value of `has_cycle`: `False`, `True`, a cycle list, or a
raised `ValueError`. -/
inductive HcRes where
  | retFalse
  | retTrue
  | retCycle (l : List String)
  | exc
deriving DecidableEq

/-- The shared mutable state of the detector: the `visited` and `rec_stack`
dicts (a name is present iff mapped to True) and the `path` list. -/
structure DfsState where
  visited : List String
  recStack : List String
  path : List String
deriving DecidableEq

/-- The `for neighbor in dependencies.get(node, [])` loop of `has_cycle`:
an unvisited neighbor is recursed into (a truthy result — `True` or a
nonempty cycle list — returns `True`); a visited neighbor on the recursion
stack yields `path[path.index(neighbor):]`, raising when it is not on the
path; after the loop the node is popped from the path and cleared from the
stack, returning `False`. -/
def hcNeighbors (recurse : String → DfsState → HcRes × DfsState) (node : String) :
    List String → DfsState → HcRes × DfsState
  | [], st =>
      (.retFalse,
        ⟨st.visited, st.recStack.filter (fun x => decide (x ≠ node)), st.path.dropLast⟩)
  | neighbor :: rest, st =>
      if neighbor ∈ st.visited then
        if neighbor ∈ st.recStack then
          if neighbor ∈ st.path then
            (.retCycle (st.path.drop (st.path.indexOf neighbor)), st)
          else
            (.exc, st)
        else
          hcNeighbors recurse node rest st
      else
        match recurse neighbor st with
        | (.retFalse, st') => hcNeighbors recurse node rest st'
        | (.retTrue, st') => (.retTrue, st')
        | (.retCycle l, st') =>
            if l = [] then hcNeighbors recurse node rest st' else (.retTrue, st')
        | (.exc, st') => (.exc, st')

/-- `has_cycle`: mark the node visited and on the stack, append it to the
path, then walk its neighbors. -/
def has_cycle (dependencies : List (String × List String)) :
    Nat → String → DfsState → HcRes × DfsState
  | 0, _, st => (.retFalse, st)
  | fuel + 1, node, st =>
      hcNeighbors (has_cycle dependencies fuel) node (depsOfSheet dependencies node)
        ⟨node :: st.visited, node :: st.recStack, st.path ++ [node]⟩

/-- The top loop of `_detect_circular_dependencies`: for each unvisited key,
run `has_cycle` with a fresh path; only a nonempty list result
(`result and isinstance(result, list)`) is returned as the detected cycle. -/
def detectGo (dependencies : List (String × List String)) (fuel : Nat) :
    List String → DfsState → Except Unit (List String)
  | [], _ => .ok []
  | node :: rest, st =>
      if node ∈ st.visited then detectGo dependencies fuel rest st
      else
        match has_cycle dependencies fuel node ⟨st.visited, st.recStack, []⟩ with
        | (.exc, _) => .error ()
        | (.retCycle l, st') =>
            if l = [] then detectGo dependencies fuel rest st' else .ok l
        | (_, st') => detectGo dependencies fuel rest st'

/-- `CrossSheetAnalyzer._detect_circular_dependencies`. -/
def detect_circular_dependencies (dependencies : List (String × List String)) :
    Except Unit (List String) :=
  detectGo dependencies ((allSheetsOf dependencies).length + 1)
    (dependencies.map Prod.fst) ⟨[], [], []⟩

/-- C2 (failing-input evaluation): on the three-sheet cycle `A→B→C→A` the
detector returns the empty list — no cycle is reported — although the
innermost frame does compute the concrete cycle `[A, B, C]`: each parent
frame converts the list into a bare `True`, and the top level only returns
list results, so the computed cycle is lost. -/
theorem c2_cycle_detector_loses_cycle :
    detect_circular_dependencies [("A", ["B"]), ("B", ["C"]), ("C", ["A"])]
      = Except.ok [] ∧
    (has_cycle [("A", ["B"]), ("B", ["C"]), ("C", ["A"])] 2 "C"
        ⟨["B", "A"], ["B", "A"], ["A", "B"]⟩).1 = HcRes.retCycle ["A", "B", "C"] ∧
    (has_cycle [("A", ["B"]), ("B", ["C"]), ("C", ["A"])] 4 "A"
        ⟨[], [], []⟩).1 = HcRes.retTrue := by
  refine ⟨rfl, rfl, rfl⟩

/-! ## C5: duplicate formula keys in auto-discovery

Embedded from `formula_auto_discovery.py`: `discover_formulas` (lines 20-91;
the column loop keyed by `f"{sheet_name}.{header}"`, plain `header` for the
default sheet name `Sheet`) and `discover_all_sheets` (lines 405-431;
`all_formulas.update(sheet_formulas)` per sheet).  The worksheet is consumed
as the loaded `(header row 1, sample-row cell)` pairs per column — file
loading is an excluded collaborator.  The stored record keeps the fields that
are computed from those inputs alone (`header`, `column`, `formula_original`,
`formula_pattern`); the remaining fields of the source dict are derived from
the same cells and other sheets' header rows and play no part in keying or
overwriting.  The function returns only this map: no diagnostic of any kind
accompanies it. -/

/-- `cell.value.startswith('=')`: the first character is `=`. -/
def startswith_eq (v : String) : Bool :=
  match v.toList with
  | [] => false
  | c :: _ => c = '='

/-- `openpyxl.utils.get_column_letter`: 1-based index to letters. -/
def columnLetterGo : Nat → Nat → List Char → List Char
  | 0, _, acc => acc
  | fuel + 1, idx, acc =>
      if idx = 0 then acc
      else columnLetterGo fuel ((idx - 1) / 26) (Char.ofNat (65 + (idx - 1) % 26) :: acc)

/-- 1-based column index to its letter encoding (A, B, ..., Z, AA, ...). -/
def get_column_letter (idx : Nat) : String :=
  String.mk (columnLetterGo idx idx [])

/-- The key-identifying fields of one `formulas_found[formula_key]` record. -/
structure DiscoveredFormula where
  header : String
  column : String
  formula_original : String
  formula_pattern : String
deriving DecidableEq

/-- The column loop of `discover_formulas`: skip columns with a falsy header,
store a record for each sample-row cell whose string value starts with `=`,
keyed by `sheet.header` (bare `header` when the sheet is named `Sheet`). -/
def discoverGo (sheet_name : String) :
    List (Option String × Option String) → Nat →
    List (String × DiscoveredFormula) → List (String × DiscoveredFormula)
  | [], _, acc => acc
  | (hdr, cell) :: rest, col_idx, acc =>
      let acc' :=
        match hdr with
        | none => acc
        | some header =>
            if header = "" then acc
            else
              match cell with
              | none => acc
              | some v =>
                  if startswith_eq v then
                    dictInsert
                      (if sheet_name ≠ "Sheet" then sheet_name ++ "." ++ header else header)
                      { header := header, column := get_column_letter col_idx,
                        formula_original := v, formula_pattern := generalize_formula v } acc
                  else acc
      discoverGo sheet_name rest (col_idx + 1) acc'

/-- `FormulaAutoDiscovery.discover_formulas` over one loaded sheet. -/
def discover_formulas (sheet_name : String)
    (cols : List (Option String × Option String)) : List (String × DiscoveredFormula) :=
  discoverGo sheet_name cols 1 []

/-- `FormulaAutoDiscovery.discover_all_sheets`:
`all_formulas.update(sheet_formulas)` per sheet, in workbook order. -/
def discover_all_sheets
    (sheets : List (String × List (Option String × Option String))) :
    List (String × DiscoveredFormula) :=
  sheets.foldl (fun acc s => dictUpdate acc (discover_formulas s.1 s.2)) []

theorem dictKeys_dictInsert {α : Type} (k : String) (v : α) (d : List (String × α)) :
    dictKeys (dictInsert k v d)
      = if k ∈ dictKeys d then dictKeys d else dictKeys d ++ [k] := by
  induction d with
  | nil => simp [dictInsert, dictKeys]
  | cons hd tl ih =>
      obtain ⟨k₀, v₀⟩ := hd
      by_cases h : k₀ = k
      · subst h
        simp [dictInsert, dictKeys]
      · have hne : ¬ k = k₀ := fun hk => h hk.symm
        simp only [dictInsert, h, if_false]
        simp only [dictKeys, List.map_cons] at ih ⊢
        rw [ih]
        simp only [List.mem_cons, hne, false_or]
        by_cases hm : k ∈ List.map Prod.fst tl
        · simp [hm]
        · simp [hm]

theorem dictKeys_dictInsert_nodup {α : Type} (k : String) (v : α)
    (d : List (String × α)) (h : (dictKeys d).Nodup) :
    (dictKeys (dictInsert k v d)).Nodup := by
  rw [dictKeys_dictInsert]
  by_cases hm : k ∈ dictKeys d
  · simpa [hm] using h
  · simp only [hm, if_false]
    exact List.Nodup.append h (List.nodup_singleton k)
      (by simpa [List.disjoint_singleton] using hm)

theorem discoverGo_keys_nodup (sheet_name : String) :
    ∀ (cols : List (Option String × Option String)) (col_idx : Nat)
      (acc : List (String × DiscoveredFormula)),
      (dictKeys acc).Nodup → (dictKeys (discoverGo sheet_name cols col_idx acc)).Nodup := by
  intro cols
  induction cols with
  | nil => intro col_idx acc h; exact h
  | cons hd rest ih =>
      intro col_idx acc h
      obtain ⟨hdr, cell⟩ := hd
      simp only [discoverGo]
      apply ih
      cases hdr with
      | none => exact h
      | some header =>
          dsimp only
          by_cases hh : header = ""
          · rw [if_pos hh]
            exact h
          · rw [if_neg hh]
            cases cell with
            | none => exact h
            | some v =>
                dsimp only
                by_cases hv : startswith_eq v = true
                · rw [if_pos hv]
                  exact dictKeys_dictInsert_nodup _ _ _ h
                · rw [if_neg hv]
                  exact h

theorem dictGet_foldl_insert_of_not_mem {α : Type} (k : String) :
    ∀ (rest : List (String × α)) (d : List (String × α)), k ∉ dictKeys rest →
      dictGet k (rest.foldl (fun acc kv => dictInsert kv.1 kv.2 acc) d) = dictGet k d := by
  intro rest
  induction rest with
  | nil => intro d _; rfl
  | cons kv rest ih =>
      intro d h
      simp only [dictKeys, List.map_cons, List.mem_cons] at h
      push_neg at h
      rw [List.foldl_cons, ih _ h.2, dictGet_dictInsert]
      have : ¬ kv.1 = k := fun hk => h.1 hk.symm
      simp [this]

theorem dictGet_dictUpdate_of_mem {α : Type} (k : String) (v : α) :
    ∀ (other d : List (String × α)), (dictKeys other).Nodup →
      dictGet k other = some v → dictGet k (dictUpdate d other) = some v := by
  intro other
  induction other with
  | nil => intro d _ h; simp [dictGet] at h
  | cons kv rest ih =>
      intro d hnodup hget
      obtain ⟨k', v'⟩ := kv
      simp only [dictKeys, List.map_cons, List.nodup_cons] at hnodup
      unfold dictUpdate
      rw [List.foldl_cons]
      by_cases hk : k' = k
      · subst hk
        have hv : v' = v := by simpa [dictGet] using hget
        subst hv
        show dictGet k' (rest.foldl (fun acc kv => dictInsert kv.1 kv.2 acc) _) = _
        rw [dictGet_foldl_insert_of_not_mem k' rest _ hnodup.1, dictGet_dictInsert]
        simp
      · simp only [dictGet, hk, if_false] at hget
        exact ih (dictInsert k' v' d) hnodup.2 hget

/-- C5 (counterexample to observability): two workbooks, one in which the key
`Data.K` is discovered once, one in which two sheets both produce `Data.K`
(sheet `Sheet` keys by bare header, so header `Data.K` collides with sheet
`Data`'s header `K`) and the later discovery overwrites the earlier one,
give byte-identical outputs: the overwrite is not reported and cannot be
observed by the caller. -/
theorem c5_overwrite_not_observable :
    discover_all_sheets
        [("Sheet", [(some "Data.K", some "=X9")]),
         ("Data", [(some "K", some "=A2+B2")])]
      = discover_all_sheets [("Data", [(some "K", some "=A2+B2")])] ∧
    (dictGet "Data.K" (discover_formulas "Sheet" [(some "Data.K", some "=X9")])).isSome
      = true ∧
    (dictGet "Data.K" (discover_formulas "Data" [(some "K", some "=A2+B2")])).isSome
      = true := by
  refine ⟨by decide, by decide, by decide⟩

/-- C5 (amended): when two discovered formulas claim the same key, the
later-discovered one replaces the earlier in the result map — whatever any
earlier sheet contributed under that key, a key discovered by the last sheet
ends up bound to the last sheet's record. -/
theorem c5_last_write_wins
    (prior : List (String × List (Option String × Option String)))
    (s : String × List (Option String × Option String))
    (k : String) (v : DiscoveredFormula)
    (h : dictGet k (discover_formulas s.1 s.2) = some v) :
    dictGet k (discover_all_sheets (prior ++ [s])) = some v := by
  unfold discover_all_sheets
  rw [List.foldl_append]
  simp only [List.foldl_cons, List.foldl_nil]
  exact dictGet_dictUpdate_of_mem k v _ _
    (discoverGo_keys_nodup s.1 s.2 1 [] (by simp [dictKeys])) h

/-- C5 witness: the general last-write-wins theorem applied to the concrete
duplicate-key workbook. -/
theorem c5_last_write_wins_witness :
    dictGet "Data.K" (discover_all_sheets
        ([("Sheet", [(some "Data.K", some "=X9")])] ++ [("Data", [(some "K", some "=A2+B2")])]))
      = some { header := "K", column := "A", formula_original := "=A2+B2",
               formula_pattern := "=A{row}+B{row}" } :=
  c5_last_write_wins [("Sheet", [(some "Data.K", some "=X9")])]
    ("Data", [(some "K", some "=A2+B2")]) "Data.K"
    { header := "K", column := "A", formula_original := "=A2+B2",
      formula_pattern := "=A{row}+B{row}" } (by decide)

/-! ## C9: self-sheet references are filtered

Embedded from `cross_sheet_analyzer.py`,
`CrossSheetAnalyzer._extract_cross_references` (lines 143-171).  The function
iterates the five compiled patterns and, per pattern, the `findall` results;
the regex engine is external, so the match lists are consumed as input: a
match is either a tuple of the two capture groups or a plain string (the
source's `isinstance` else-branch, which splits on `!` and strips quotes).
A reference is appended only under the guard `target_sheet != current_sheet`. -/

/-- One appended reference dict. -/
structure CrossRef where
  type : String
  source_sheet : String
  target_sheet : String
  target_reference : String
  formula : String
deriving DecidableEq

/-- Python `match.strip("'")`: drop apostrophes from both ends. -/
def stripQuotes (s : String) : String :=
  String.mk (((s.toList.dropWhile (fun c => c = '\'')).reverse.dropWhile
    (fun c => c = '\'')).reverse)

/-- Decode one match: a tuple yields its two groups directly; a plain string
is split on `!`, keeping only two-part splits, with quotes stripped from the
sheet part (`continue` — `none` — otherwise). -/
def parseMatch (m : String ⊕ (String × String)) : Option (String × String) :=
  match m with
  | .inr groups => some (groups.1, groups.2)
  | .inl s =>
      match s.splitOn "!" with
      | [a, b] => some (stripQuotes a, b)
      | _ => none

/-- The body of the inner `for match in matches` loop: decode the match,
then append the reference only when the target sheet differs from the
current sheet. -/
def ecrAddMatch (formula current_sheet pattern_name : String)
    (references : List CrossRef) (m : String ⊕ (String × String)) : List CrossRef :=
  match parseMatch m with
  | none => references
  | some (target_sheet, target_ref) =>
      if target_sheet ≠ current_sheet then
        references ++ [{ type := pattern_name, source_sheet := current_sheet,
                         target_sheet := target_sheet, target_reference := target_ref,
                         formula := formula }]
      else references

/-- `CrossSheetAnalyzer._extract_cross_references`: the outer loop over
`(pattern_name, findall results)` pairs. -/
def extract_cross_references (formula : String)
    (patternMatches : List (String × List (String ⊕ (String × String))))
    (current_sheet : String) : List CrossRef :=
  patternMatches.foldl
    (fun references pm => pm.2.foldl (ecrAddMatch formula current_sheet pm.1) references) []

theorem ecrAddMatch_inv (formula current_sheet pattern_name : String)
    (references : List CrossRef) (m : String ⊕ (String × String))
    (hrefs : ∀ r ∈ references, r.target_sheet ≠ current_sheet) :
    ∀ r ∈ ecrAddMatch formula current_sheet pattern_name references m,
      r.target_sheet ≠ current_sheet := by
  intro r hr
  unfold ecrAddMatch at hr
  rcases hparsed : parseMatch m with _ | ⟨target_sheet, target_ref⟩
  · rw [hparsed] at hr
    exact hrefs r hr
  · rw [hparsed] at hr
    by_cases hts : target_sheet ≠ current_sheet
    · dsimp only at hr
      rw [if_pos hts] at hr
      rcases List.mem_append.1 hr with hin | hnew
      · exact hrefs r hin
      · have hval : r = ⟨pattern_name, current_sheet, target_sheet, target_ref, formula⟩ := by
          simpa using hnew
        rw [hval]
        exact hts
    · dsimp only at hr
      rw [if_neg hts] at hr
      exact hrefs r hr

theorem ecr_foldl_inner_inv (formula current_sheet pattern_name : String) :
    ∀ (ms : List (String ⊕ (String × String))) (references : List CrossRef),
      (∀ r ∈ references, r.target_sheet ≠ current_sheet) →
      ∀ r ∈ ms.foldl (ecrAddMatch formula current_sheet pattern_name) references,
        r.target_sheet ≠ current_sheet := by
  intro ms
  induction ms with
  | nil => intro references h; exact h
  | cons m ms ih =>
      intro references h
      rw [List.foldl_cons]
      exact ih _ (ecrAddMatch_inv formula current_sheet pattern_name references m h)

/-- C9: every reference emitted by the cross-reference extractor targets a
sheet different from the formula's own sheet, whatever the pattern matches
are: the `target_sheet != current_sheet` guard filters all self-sheet
references. -/
theorem c9_no_self_sheet_references (formula current_sheet : String)
    (patternMatches : List (String × List (String ⊕ (String × String))))
    (r : CrossRef)
    (h : r ∈ extract_cross_references formula patternMatches current_sheet) :
    r.target_sheet ≠ current_sheet := by
  unfold extract_cross_references at h
  revert h
  suffices hsuff : ∀ (pms : List (String × List (String ⊕ (String × String))))
      (references : List CrossRef),
      (∀ x ∈ references, x.target_sheet ≠ current_sheet) →
      ∀ x ∈ pms.foldl
        (fun refs pm => pm.2.foldl (ecrAddMatch formula current_sheet pm.1) refs) references,
        x.target_sheet ≠ current_sheet by
    intro h
    exact hsuff patternMatches [] (by simp) r h
  intro pms
  induction pms with
  | nil => intro references h x hx; exact h x hx
  | cons pm pms ih =>
      intro references h x hx
      rw [List.foldl_cons] at hx
      exact ih _ (ecr_foldl_inner_inv formula current_sheet pm.1 pm.2 references h) x hx

/-- C9 witness: the theorem applied to one concrete extracted reference. -/
theorem c9_no_self_sheet_references_witness :
    ({ type := "sheet_cell", source_sheet := "Data", target_sheet := "Folha",
       target_reference := "A1", formula := "=Folha!A1" } : CrossRef).target_sheet
      ≠ "Data" :=
  c9_no_self_sheet_references "=Folha!A1" "Data"
    [("sheet_cell", [Sum.inr ("Folha", "A1")])]
    { type := "sheet_cell", source_sheet := "Data", target_sheet := "Folha",
      target_reference := "A1", formula := "=Folha!A1" } (by decide)

/-! ## C10: impact enrichment preserves the validation results

Embedded from `impact_analyzer.py`, `ImpactAnalyzer.gerar_relatorio_impacto`
(lines 89-112).  Result records are Python dicts with string keys and string,
integer or boolean values; `resultado['coluna']` raises `KeyError` when the
key is missing, so the embedding returns `Except`.  `resultado.copy()`
followed by one key assignment is a pure `dictInsert` on the record. -/

/-- A modeled Python value in a validation-result record. -/
inductive PyVal where
  | str (s : String)
  | int (n : Int)
  | bool (b : Bool)
deriving DecidableEq

/-- Python `f"{x}"` on the modeled values. -/
def pyStr : PyVal → String
  | .str s => s
  | .int n => toString n
  | .bool b => if b then "True" else "False"

/-- The `resultado_key` f-string `f"{chave}_{coluna}_{linha_idx}"`, with the
source's defaults for `linha_idx` and `chave` (the `coluna` default is never
used by the enrichment, which raises before reading it when the key is
missing). -/
def resultKey (resultado : List (String × PyVal)) : String :=
  let linha_idx := (dictGet "linha_idx" resultado).getD (.int 0)
  let coluna := (dictGet "coluna" resultado).getD (.str "")
  let chave := (dictGet "chave" resultado).getD (.str ("Linha_" ++ pyStr linha_idx))
  pyStr chave ++ "_" ++ pyStr coluna ++ "_" ++ pyStr linha_idx

/-- The loop body of `gerar_relatorio_impacto` for one record: copy the
record and set `divergencias_na_formula` to the looked-up message. -/
def enrich_result (impacto_por_resultado : List (String × String))
    (resultado : List (String × PyVal)) : Except String (List (String × PyVal)) :=
  match dictGet "coluna" resultado with
  | none => .error "KeyError: coluna"
  | some _ =>
      let divergencias_msg := (dictGet (resultKey resultado) impacto_por_resultado).getD ""
      .ok (dictInsert "divergencias_na_formula" (.str divergencias_msg) resultado)

/-- `ImpactAnalyzer.gerar_relatorio_impacto`: enrich every record in order. -/
def gerar_relatorio_impacto (impacto_por_resultado : List (String × String))
    (validation_results : List (List (String × PyVal))) :
    Except String (List (List (String × PyVal))) :=
  validation_results.mapM (enrich_result impacto_por_resultado)

/-- C10: on records that have a `coluna` field and no pre-existing
`divergencias_na_formula` field, enrichment succeeds and returns one output
record per input record, in order, each equal to its input record with
exactly the one field `divergencias_na_formula` appended; nothing else is
modified or removed. -/
theorem c10_enrich_preserves_results (impacto_por_resultado : List (String × String))
    (validation_results : List (List (String × PyVal)))
    (h : ∀ r ∈ validation_results,
      (dictGet "coluna" r).isSome = true ∧ dictGet "divergencias_na_formula" r = none) :
    gerar_relatorio_impacto impacto_por_resultado validation_results
      = Except.ok (validation_results.map (fun r =>
          r ++ [("divergencias_na_formula",
            PyVal.str ((dictGet (resultKey r) impacto_por_resultado).getD ""))])) := by
  unfold gerar_relatorio_impacto
  induction validation_results with
  | nil => rfl
  | cons r rs ih =>
      obtain ⟨hcol, hnew⟩ := h r (List.mem_cons_self r rs)
      have hr : enrich_result impacto_por_resultado r
          = .ok (r ++ [("divergencias_na_formula",
              PyVal.str ((dictGet (resultKey r) impacto_por_resultado).getD ""))]) := by
        rcases hc : dictGet "coluna" r with _ | coluna
        · rw [hc] at hcol
          simp at hcol
        · simp only [enrich_result, hc]
          rw [dictInsert_of_not_mem _ _ _ ((dictGet_eq_none_iff _ _).1 hnew)]
      rw [List.mapM_cons, hr, ih (fun x hx => h x (List.mem_cons_of_mem r hx))]
      rfl

/-- C10 witness: the theorem applied to a concrete record and impact map. -/
theorem c10_enrich_preserves_results_witness :
    gerar_relatorio_impacto [("Linha_0_SALARIO_0", "causa")]
        [[("coluna", PyVal.str "SALARIO"), ("resultado", PyVal.bool false)]]
      = Except.ok [[("coluna", PyVal.str "SALARIO"), ("resultado", PyVal.bool false),
          ("divergencias_na_formula", PyVal.str "causa")]] := by
  have h := c10_enrich_preserves_results [("Linha_0_SALARIO_0", "causa")]
    [[("coluna", PyVal.str "SALARIO"), ("resultado", PyVal.bool false)]]
    (by intro r hr; simp at hr; subst hr; exact ⟨by decide, by decide⟩)
  rw [h]
  rfl

end Validador
